import Mathlib

/-!
Verification of the sapo-cli pre-install guard.

This file gives a shallow embedding of the core components of the tool:
the flat key-value config store and its trust set (src/config/store.rs),
the risk-decision operation (src/commands/scan.rs), the local sandbox
collector (src/sandbox/analyze.rs), the runtime-monitor controller
(src/commands/monitor.rs) and the install interceptor
(src/commands/wrap.rs).  External effects (the remote scoring service,
the interactive confirmation input, subprocess outcomes, filesystem
success or failure) are passed in explicitly as environment values, and
every observable effect of an operation (its proceed decision, whether a
scan request was issued, the resulting persisted config content, the
process exit) is returned explicitly.
-/

/-! ## Character and string primitives

Rust string operations used by the source, re-implemented over
`List Char`.  `isRustWS` is the Unicode White_Space predicate used by
Rust's `str::trim` / `char::is_whitespace`.
-/

/-- Unicode White_Space property, as used by Rust's `str::trim`. -/
def isRustWS (c : Char) : Bool :=
  c == ' ' || c == '\t' || c == '\n' || c == '\x0d' ||
  c.toNat == 0x0b || c.toNat == 0x0c || c.toNat == 0x85 || c.toNat == 0xA0 ||
  c.toNat == 0x1680 || (0x2000 ≤ c.toNat && c.toNat ≤ 0x200A) ||
  c.toNat == 0x2028 || c.toNat == 0x2029 || c.toNat == 0x202F ||
  c.toNat == 0x205F || c.toNat == 0x3000

/-- Drop leading whitespace, as in Rust's `str::trim_start`. -/
def trimLeftChars (l : List Char) : List Char := l.dropWhile isRustWS

/-- Drop trailing whitespace, as in Rust's `str::trim_end`. -/
def trimRightChars (l : List Char) : List Char :=
  (l.reverse.dropWhile isRustWS).reverse

/-- Drop surrounding whitespace, as in Rust's `str::trim`. -/
def trimChars (l : List Char) : List Char := trimRightChars (trimLeftChars l)

/-- Rust's `str::trim` on strings. -/
def rustTrim (s : String) : String := ⟨trimChars s.data⟩

/-- Split at every occurrence of the separator, keeping empty pieces:
Rust's `str::split(c)`. -/
def splitChar (c : Char) : List Char → List (List Char)
  | [] => [[]]
  | x :: xs =>
    match splitChar c xs with
    | [] => [[x]]
    | y :: ys => if x = c then [] :: y :: ys else (x :: y) :: ys

/-- Split at the first occurrence of the separator, if any: Rust's
`str::split_once(c)`. -/
def splitOnceChar (c : Char) : List Char → Option (List Char × List Char)
  | [] => none
  | x :: xs =>
    if x = c then some ([], xs)
    else
      match splitOnceChar c xs with
      | some (a, b) => some (x :: a, b)
      | none => none

/-- Interleave a separator character between pieces: Rust's
`Vec::join` with a one-character separator. -/
def joinSep (c : Char) : List (List Char) → List Char
  | [] => []
  | [l] => l
  | l :: l2 :: ls => l ++ c :: joinSep c (l2 :: ls)

/-- ASCII lower-casing of one character; this is how Rust's
`str::to_lowercase` acts on the characters relevant to the confirmation
gate (no character outside the ASCII uppercase range lower-cases to an
ASCII letter). -/
def lowerChar (c : Char) : Char :=
  if 'A' ≤ c ∧ c ≤ 'Z' then Char.ofNat (c.toNat + 32) else c

/-- Rust's `str::to_lowercase`, character by character. -/
def lowerStr (s : String) : String := ⟨s.data.map lowerChar⟩

/-! ## ConfigStore (src/config/store.rs)

The persisted state is the literal content of the `~/.sapo/config` file:
newline-delimited `key=value` lines.  `parseConfig` is `get_config`
(parse every line with `split_once('=')`, trimming key and value,
later lines overwriting earlier ones, as `HashMap::insert` does);
`serializeConfig` is the whole-file rewrite done by `set_config_value`.
-/

/-- One parsed config entry. -/
abbrev Entry := String × String

/-- Insert with last-write-wins semantics, the observable behaviour of
`HashMap::insert` on the parsed map. -/
def insertEntry : List Entry → String → String → List Entry
  | [], k, v => [(k, v)]
  | (a, b) :: t, k, v =>
    if a = k then (k, v) :: t else (a, b) :: insertEntry t k v

/-- Lookup in the parsed map, the observable behaviour of
`HashMap::get`. -/
def lookupEntry : List Entry → String → Option String
  | [], _ => none
  | (a, b) :: t, k => if a = k then some b else lookupEntry t k

/-- Parse one line of the config file: `line.split_once('=')` with key
and value trimmed; lines without an equals sign are skipped. -/
def parseConfigLine (m : List Entry) (line : List Char) : List Entry :=
  match splitOnceChar '=' line with
  | some (k, v) => insertEntry m ⟨trimChars k⟩ ⟨trimChars v⟩
  | none => m

/-- The `get_config` function: parse the whole config file. -/
def parseConfig (content : String) : List Entry :=
  (splitChar '\n' content.data).foldl parseConfigLine []

/-- Render one parsed entry back to a `key=value` line. -/
def lineOfEntry (e : Entry) : List Char := e.1.data ++ '=' :: e.2.data

/-- The whole-file rewrite performed by `set_config_value`: every entry
as a `key=value` line, joined with newlines. -/
def serializeConfig (m : List Entry) : String :=
  ⟨joinSep '\n' (m.map lineOfEntry)⟩

/-- The `get_config_value` function. -/
def getConfigValue (key : String) (content : String) : Option String :=
  lookupEntry (parseConfig content) key

/-- The `get_config_value_or` function. -/
def getConfigValueOr (key dflt : String) (content : String) : String :=
  (getConfigValue key content).getD dflt

/-- The `set_config_value` function, acting on the persisted content. -/
def setConfigValue (key value : String) (content : String) : String :=
  serializeConfig (insertEntry (parseConfig content) key value)

/-- Parse the comma-joined trust list: `split(',')` keeping only
non-empty pieces, as in `get_trusted`. -/
def parseTrustList (s : String) : List String :=
  ((splitChar ',' s.data).filter (fun l => l ≠ [])).map (fun l => (⟨l⟩ : String))

/-- The `get_trusted` function. -/
def getTrusted (content : String) : List String :=
  match getConfigValue "trusted" content with
  | some s => parseTrustList s
  | none => []

/-- Comma-join a trust list, as in `add_trusted` / `remove_trusted`. -/
def joinComma (xs : List String) : String := ⟨joinSep ',' (xs.map String.data)⟩

/-- The `is_trusted` function. -/
def isTrusted (package : String) (content : String) : Bool :=
  (getTrusted content).contains package

/-- The `add_trusted` function: push the name if absent, then rewrite
the `trusted` key. -/
def addTrusted (package : String) (content : String) : String :=
  let t := getTrusted content
  if t.contains package then content
  else setConfigValue "trusted" (joinComma (t ++ [package])) content

/-- The `remove_trusted` function: filter the name out and rewrite the
`trusted` key (written even when the name was absent). -/
def removeTrusted (package : String) (content : String) : String :=
  setConfigValue "trusted" (joinComma ((getTrusted content).filter (fun p => p ≠ package))) content

/-- The `get_plan` function. -/
def getPlan (content : String) : String := getConfigValueOr "plan" "free" content

/-- The `is_pro` function: plan is `pro` or `enterprise`. -/
def isPro (content : String) : Bool :=
  getPlan content == "pro" || getPlan content == "enterprise"

/-- The `is_monitoring_enabled` function from src/commands/monitor.rs. -/
def isMonitoringEnabled (content : String) : Bool :=
  match getConfigValue "runtime_monitoring" content with
  | some v => v == "true" || v == "1"
  | none => false

/-- The `get_device_id` function: return the stored id, or generate one
(`gen` stands for the fresh uuid) and persist it.  Returns the id and
the possibly-updated config content. -/
def getDeviceId (gen : String) (content : String) : String × String :=
  match getConfigValue "device_id" content with
  | some id => (id, content)
  | none => (gen, setConfigValue "device_id" gen content)

/-! ## Remote API data shapes (src/api/client.rs) -/

/-- One sandbox flag in a scan or analyze response. -/
structure SandboxFlag where
  flag : Option String
  detail : Option String
  score : Option Int
deriving DecidableEq

/-- The deserialized response of GET scan. -/
structure ScanResponse where
  package : Option String
  version : Option String
  riskLevel : Option String
  message : Option String
  scanned : Option Bool
  sandboxCached : Option Bool
  sandboxScore : Option Int
  sandboxRiskLevel : Option String
  sandboxFlags : Option (List SandboxFlag)
  previousVersion : Option String
  anomalyReasons : Option (List String)
deriving DecidableEq

/-- A traced network connection in a behavior report. -/
structure NetworkConnection where
  host : Option String
  ip : Option String
  port : Int
deriving DecidableEq

/-- A spawned process in a behavior report. -/
structure ProcessSpawned where
  executable : String
  args : List String
deriving DecidableEq

/-- A sensitive access record in a behavior report. -/
structure SensitiveAccess where
  accessType : String
  path : String
deriving DecidableEq

/-- The behavior report assembled by the sandbox collector. -/
structure SandboxBehavior where
  filesRead : List String
  filesWritten : List String
  networkConnections : List NetworkConnection
  processesSpawned : List ProcessSpawned
  envVarsAccessed : List String
  sensitiveAccess : List SensitiveAccess
  exitCode : Int
deriving DecidableEq

/-- The deserialized response of POST sandbox/analyze. -/
structure AnalyzeResponse where
  score : Option Int
  riskLevel : Option String
  flags : Option (List SandboxFlag)
  cached : Option Bool
deriving DecidableEq

/-! ## SandboxCollector (src/sandbox/analyze.rs)

The filesystem and the traced install are external: whether the
directory creation and the manifest write succeed, and what the
OS-specific collector returns, are environment inputs.  The second
component of the result of `collectBehavior` records whether the
disposable working directory (keyed by the process id) is still on disk
when the function returns.
-/

/-- External outcomes consumed by `collect_behavior`. -/
structure CollectEnv where
  createDirOk : Bool
  writeManifestOk : Bool
  osBehavior : Option SandboxBehavior
deriving DecidableEq

/-- The `collect_behavior` function.  Mirrors the source exactly:
directory creation failure aborts before the directory exists; a
manifest (package.json) write failure aborts through the question-mark
operator BEFORE the final `fs::remove_dir_all` cleanup line, so the
already-created directory is left on disk; on every other path the
OS-specific collector runs and the cleanup removes the directory.
Result: the returned behavior report, and whether the working directory
remains on disk. -/
def collectBehavior (env : CollectEnv) : Option SandboxBehavior × Bool :=
  if env.createDirOk = false then (none, false)
  else if env.writeManifestOk = false then (none, true)
  else (env.osBehavior, false)

/-! ## RiskDecisionEngine (src/commands/scan.rs)

The external world of one `scan::run` call: the remote scan response
(or a transport/parse error), the line read from stdin at the dangerous
confirmation gate, the uuid that `get_device_id` would generate if the
config has none, sandbox availability, and the sandbox-analyze
response.
-/

/-- Environment of one decide call. -/
structure ScanEnv where
  response : Except String ScanResponse
  confirmInput : String
  genId : String
  sandboxAvailable : Bool
  collectEnv : CollectEnv
  analyzeResponse : Except String AnalyzeResponse

/-- Observable outcome of one decide call: the proceed decision,
whether a remote scan request was issued, whether a local sandbox
report was collected and submitted, whether the API-unreachable warning
was printed, and the resulting persisted config content. -/
structure ScanOut where
  proceed : Bool
  scanCalled : Bool
  sandboxRan : Bool
  failureWarned : Bool
  store : String

/-- The flag / path filter at the top of `scan::run`: package specs
starting with a dash, dot or slash are skipped (trivially allowed). -/
def skipToken (package : String) : Bool :=
  match package.data with
  | [] => false
  | c :: _ => c == '-' || c == '.' || c == '/'

/-- The bare package name: everything before the first at-sign,
`package.split('@').next().unwrap_or(package)`. -/
def bareName (package : String) : String :=
  ⟨package.data.takeWhile (fun c => c ≠ '@')⟩

/-- The dangerous-tier confirmation check: the read line is trimmed,
lower-cased and compared against the single letter y
(`input.trim().to_lowercase() != "y"` cancels). -/
def confirmYes (input : String) : Bool := lowerStr (rustTrim input) == "y"

/-- The `run_local_sandbox` function (src/sandbox/analyze.rs): skip
when no tracing facility is available, collect behavior, and if a
report was produced read the device id (possibly persisting a fresh
one) and submit the report.  Returns whether a report was submitted and
the resulting config content. -/
def runLocalSandbox (store : String) (packageName version : String) (env : ScanEnv) : Bool × String :=
  if env.sandboxAvailable = false then (false, store)
  else
    match (collectBehavior env.collectEnv).1 with
    | none => (false, store)
    | some _ =>
      let s2 := (getDeviceId env.genId store).2
      (true, s2)

/-- The `scan::run` function: the decide operation for one package
spec.  Follows src/commands/scan.rs line by line; the variables
`packageName` and `version` play the roles of `pkg_name` and
`version`. -/
def scanRun (store : String) (package : String) (env : ScanEnv) : ScanOut :=
  if skipToken package then ⟨true, false, false, false, store⟩
  else
    let packageName := bareName package
    if isTrusted packageName store then ⟨true, false, false, false, store⟩
    else
      let store1 := (getDeviceId env.genId store).2
      match env.response with
      | Except.error _ => ⟨true, true, false, true, store1⟩
      | Except.ok r =>
        let riskLevel := r.riskLevel.getD "unknown"
        let version := r.version.getD "latest"
        if riskLevel == "dangerous" && !confirmYes env.confirmInput then
          ⟨false, true, false, false, store1⟩
        else if !(r.scanned.getD false) then
          ⟨true, true, false, false, store1⟩
        else if r.sandboxCached.getD false then
          ⟨true, true, false, false, store1⟩
        else
          let sb := runLocalSandbox store1 packageName version env
          ⟨true, true, sb.1, false, sb.2⟩

/-! ## RuntimeMonitorController (src/commands/monitor.rs) -/

/-- External outcomes consumed by `enable`: the module-download
response and the success of the directory creation and script write. -/
structure EnableEnv where
  download : Except String String
  createDirOk : Bool
  writeOk : Bool

/-- The `download_monitor_script` function: true only when the module
download succeeded, the target directory could be created and the
script file was written. -/
def downloadMonitorScript (env : EnableEnv) : Bool :=
  match env.download with
  | Except.error _ => false
  | Except.ok _ =>
    if env.createDirOk = false then false
    else if env.writeOk = false then false
    else true

/-- Observable outcome of `enable`: the resulting config content,
whether a module download was attempted, and whether the script file
was persisted. -/
structure EnableOut where
  store : String
  downloadAttempted : Bool
  scriptPersisted : Bool

/-- The `enable` function: require Pro, download and persist the
monitor script, and only then set the `runtime_monitoring` flag. -/
def enableMonitor (store : String) (env : EnableEnv) : EnableOut :=
  if isPro store = false then ⟨store, false, false⟩
  else if downloadMonitorScript env = false then ⟨store, true, false⟩
  else ⟨setConfigValue "runtime_monitoring" "true" store, true, true⟩

/-- Last n elements of a list, in order. -/
def takeLast {α : Type} (n : Nat) (l : List α) : List α :=
  (l.reverse.take n).reverse

/-- The `show_threats` function: read all log lines, then display the
records among the last `count` LINES that parse as structured threat
records (`parse` stands for serde-json line deserialization; it
returns none on a malformed line).  Returns the displayed records in
file order. -/
def showThreats {α : Type} (parse : String → Option α) (count : Nat) (lines : List String) : List α :=
  if lines.isEmpty then []
  else
    let start := if lines.length > count then lines.length - count else 0
    (lines.drop start).filterMap parse

/-- Modelled from the spec's words, for comparison with `showThreats`:
the last `min(n, total)` syntactically valid records in original
order, where `total` counts only valid records. -/
def specThreatsQuery {α : Type} (parse : String → Option α) (count : Nat) (lines : List String) : List α :=
  let valid := lines.filterMap parse
  takeLast (min count valid.length) valid

/-- Modelled from the spec's words, for comparison with the
confirmation gate: whether a whole input matches the anchored
regular expression with character class Y-or-y. -/
def specRegexYy (s : String) : Bool := s == "y" || s == "Y"

/-! ## InstallInterceptor (src/commands/wrap.rs) -/

/-- Outcome of spawning the real package manager: a normal exit code,
an exit without a code (killed by a signal), or a spawn error. -/
inductive ChildOutcome where
  | exited (code : Int)
  | noCode
  | spawnError
deriving DecidableEq

/-- The tail of `run_original_command`: `exit(status.code().unwrap_or(1))`
when a status was obtained; when spawning itself failed the function
falls through and returns normally (no exit call). -/
def runOriginalCommand (outcome : ChildOutcome) : Option Int :=
  match outcome with
  | ChildOutcome.exited c => some c
  | ChildOutcome.noCode => some 1
  | ChildOutcome.spawnError => none

/-- Environment of one interceptor invocation. -/
structure WrapEnv where
  store : String
  sapoDisabled : Bool
  monitorDisabled : Bool
  monitorScriptExists : Bool
  lockfileExists : Bool
  scanEnvFor : String → ScanEnv
  childOutcome : ChildOutcome

/-- Observable outcome of one interceptor invocation: the package specs
passed to the decide operation in order, the argument vector handed to
the real package manager (none when it was never invoked), whether the
monitoring hook was injected, and the process exit code (none when the
function returned normally without calling exit). -/
structure WrapResult where
  scanned : List String
  execArgsUsed : Option (List String)
  monitored : Bool
  exit : Option Int

/-- Classification of argv0 into install-like commands per manager
(npm/pnpm/bun: install, i, add; yarn: add, install or empty; anything
else: never). -/
def isInstallCmd (manager cmd : String) : Bool :=
  if manager == "npm" || manager == "pnpm" || manager == "bun" then
    cmd == "install" || cmd == "i" || cmd == "add"
  else if manager == "yarn" then
    cmd == "add" || cmd == "install" || cmd == ""
  else false

/-- The `scan_lockfile` function: every path returns true (the batch
lockfile scan is a documented always-permit placeholder). -/
def scanLockfile (manager : String) (lockfileExists : Bool) : Bool := true

/-- The per-package scanning loop of `wrap::run`: decide each package
in order, threading the config content, stopping at the first block.
Returns the packages that were passed to the decide operation, whether
all of them passed, and the final config content. -/
def scanLoop (envFor : String → ScanEnv) : List String → String → List String × Bool × String
  | [], store => ([], true, store)
  | p :: rest, store =>
    let out := scanRun store p (envFor p)
    if out.proceed then
      let r := scanLoop envFor rest out.store
      (p :: r.1, r.2.1, r.2.2)
    else ([p], false, out.store)

/-- The `should_use_runtime_monitoring` function. -/
def shouldUseMonitoring (env : WrapEnv) (store : String) : Bool :=
  if env.monitorDisabled then false
  else if isPro store = false then false
  else if isMonitoringEnabled store = false then false
  else if env.monitorScriptExists = false then false
  else true

/-- The `wrap::run` function: pass non-install commands straight
through to the real manager; for install commands decide every named
package (or run the always-permitting lockfile check), abort on the
first block, then re-exec the real manager, with the monitoring hook
injected when applicable. -/
def wrapRun (env : WrapEnv) (manager : String) (args : List String) : WrapResult :=
  if env.sapoDisabled then ⟨[], some args, false, runOriginalCommand env.childOutcome⟩
  else
    let cmd := (args.head?).getD ""
    if isInstallCmd manager cmd = false then
      ⟨[], some args, false, runOriginalCommand env.childOutcome⟩
    else
      let packages := (args.drop 1).filter (fun a => skipToken a = false)
      if packages.isEmpty then
        if scanLockfile manager env.lockfileExists = false then ⟨[], none, false, none⟩
        else
          let mon := shouldUseMonitoring env env.store
          ⟨[], some args, mon, runOriginalCommand env.childOutcome⟩
      else
        let r := scanLoop env.scanEnvFor packages env.store
        if r.2.1 = false then ⟨r.1, none, false, none⟩
        else
          let mon := shouldUseMonitoring env r.2.2
          ⟨r.1, some args, mon, runOriginalCommand env.childOutcome⟩

/-! ## Wellformedness of parsed config entries

Shapes that `get_config` guarantees for every entry it produces: keys
are trimmed and contain no equals sign and no newline; values are
trimmed and contain no newline.
-/

/-- A key as produced by the config parser. -/
def wfKey (k : String) : Prop :=
  ('=' ∉ k.data) ∧ ('\n' ∉ k.data) ∧ trimChars k.data = k.data

/-- A value as produced by the config parser. -/
def wfValue (v : String) : Prop :=
  ('\n' ∉ v.data) ∧ trimChars v.data = v.data

/-- Every entry of the map has a wellformed key and value. -/
def wfEntries (m : List Entry) : Prop := ∀ e ∈ m, wfKey e.1 ∧ wfValue e.2

/-- All keys of the map are distinct. -/
def keysNodup (m : List Entry) : Prop := (m.map Prod.fst).Nodup

/-! ## Sample environments used by concrete instantiations -/

/-- A collect environment where the filesystem behaves and the traced
install produced nothing. -/
def sampleCollectEnv : CollectEnv := ⟨true, true, none⟩

/-- A decide environment whose remote scan call fails. -/
def sampleScanEnvErr : ScanEnv :=
  ⟨Except.error "connection refused", "", "linux_id1", false,
    sampleCollectEnv, Except.error "unreachable"⟩

/-- A remote response carrying only a dangerous risk level. -/
def dangerousResponse : ScanResponse :=
  ⟨none, none, some "dangerous", none, none, none, none, none, none, none, none⟩

/-- A decide environment with a dangerous remote response and the given
confirmation input. -/
def sampleScanEnvDanger (input : String) : ScanEnv :=
  ⟨Except.ok dangerousResponse, input, "linux_id1", false,
    sampleCollectEnv, Except.error "unreachable"⟩

/-- An interceptor environment on a free-plan store whose child exits
with code 7. -/
def sampleWrapEnv : WrapEnv :=
  ⟨"plan=free", false, false, false, false, fun _ => sampleScanEnvErr,
    ChildOutcome.exited 7⟩

/-- An enable environment where the download and both filesystem
operations would succeed. -/
def sampleEnableEnvOk : EnableEnv := ⟨Except.ok "module source", true, true⟩

/-! ## Lemmas about trimming -/

/-- Dropping leading whitespace twice is the same as once. -/
theorem trimLeftChars_idem (l : List Char) :
    trimLeftChars (trimLeftChars l) = trimLeftChars l :=
  List.dropWhile_idempotent isRustWS l

/-- Dropping trailing whitespace twice is the same as once. -/
theorem trimRightChars_idem (l : List Char) :
    trimRightChars (trimRightChars l) = trimRightChars l := by
  unfold trimRightChars
  rw [List.reverse_reverse, List.dropWhile_idempotent]

/-- The dropWhile of a list ending in an element the predicate rejects
keeps that final element in place. -/
theorem dropWhile_append_single {α : Type} {p : α → Bool} {c : α}
    (h : p c = false) (xs : List α) :
    List.dropWhile p (xs ++ [c]) = List.dropWhile p xs ++ [c] := by
  rw [List.dropWhile_append]
  split
  · next h2 =>
      have h3 : List.dropWhile p xs = [] := by
        simpa using h2
      rw [h3, List.dropWhile_cons, h]
      simp
  · rfl

/-- A list starting with a non-whitespace character is left-trim
stable. -/
theorem trimLeftChars_cons_of_head {c : Char} {l : List Char}
    (h : isRustWS c = false) : trimLeftChars (c :: l) = c :: l := by
  unfold trimLeftChars
  rw [List.dropWhile_cons, h]
  simp

/-- A left-trim-stable nonempty list starts with a non-whitespace
character. -/
theorem head_not_ws_of_trimLeft_stable {c : Char} {l : List Char}
    (h : trimLeftChars (c :: l) = c :: l) : isRustWS c = false := by
  by_contra hc
  have hc2 : isRustWS c = true := by
    revert hc
    cases isRustWS c <;> simp
  unfold trimLeftChars at h
  rw [List.dropWhile_cons, hc2] at h
  simp at h
  have h4 := congrArg List.length h
  have h5 : (List.dropWhile isRustWS l).length ≤ l.length :=
    (List.dropWhile_sublist isRustWS).length_le
  simp at h4
  omega

/-- Right-trimming a list whose head is not whitespace right-trims the
tail. -/
theorem trimRightChars_cons_of_head {c : Char} {l : List Char}
    (h : isRustWS c = false) :
    trimRightChars (c :: l) = c :: trimRightChars l := by
  unfold trimRightChars
  rw [List.reverse_cons, dropWhile_append_single h, List.reverse_append]
  simp

/-- Right-trimming preserves left-trim stability. -/
theorem trimLeft_stable_trimRight {l : List Char}
    (h : trimLeftChars l = l) :
    trimLeftChars (trimRightChars l) = trimRightChars l := by
  cases l with
  | nil => rfl
  | cons c t =>
    have hc : isRustWS c = false := head_not_ws_of_trimLeft_stable h
    rw [trimRightChars_cons_of_head hc]
    exact trimLeftChars_cons_of_head hc

/-- Trimming twice is the same as once. -/
theorem trimChars_idem (l : List Char) : trimChars (trimChars l) = trimChars l := by
  unfold trimChars
  rw [trimLeft_stable_trimRight (trimLeftChars_idem l), trimRightChars_idem]

/-- A list that is both left- and right-trim stable is trim stable. -/
theorem trimChars_eq_self {l : List Char}
    (h1 : trimLeftChars l = l) (h2 : trimRightChars l = l) :
    trimChars l = l := by
  unfold trimChars
  rw [h1, h2]

/-- A trim-stable list is left-trim stable. -/
theorem trimLeft_of_trim_stable {l : List Char} (h : trimChars l = l) :
    trimLeftChars l = l := by
  have hsub : (trimLeftChars l).Sublist l := List.dropWhile_sublist isRustWS
  apply hsub.eq_of_length
  have h1 : (trimChars l).length ≤ (trimLeftChars l).length := by
    unfold trimChars trimRightChars
    calc ((trimLeftChars l).reverse.dropWhile isRustWS).reverse.length
        = ((trimLeftChars l).reverse.dropWhile isRustWS).length := by
          rw [List.length_reverse]
      _ ≤ (trimLeftChars l).reverse.length :=
          (List.dropWhile_sublist isRustWS).length_le
      _ = (trimLeftChars l).length := by rw [List.length_reverse]
  have h2 : (trimLeftChars l).length ≤ l.length := hsub.length_le
  have h3 := congrArg List.length h
  omega

/-- A trim-stable list is right-trim stable. -/
theorem trimRight_of_trim_stable {l : List Char} (h : trimChars l = l) :
    trimRightChars l = l := by
  have h1 : trimLeftChars l = l := trimLeft_of_trim_stable h
  have h2 : trimChars l = trimRightChars l := by
    unfold trimChars
    rw [h1]
  rw [← h2, h]

/-- Every character of a trimmed list occurs in the original list. -/
theorem mem_of_mem_trimChars {a : Char} {l : List Char}
    (h : a ∈ trimChars l) : a ∈ l := by
  unfold trimChars trimRightChars trimLeftChars at h
  rw [List.mem_reverse] at h
  have h2 := (List.dropWhile_sublist isRustWS).subset h
  rw [List.mem_reverse] at h2
  exact (List.dropWhile_sublist isRustWS).subset h2

/-! ## Lemmas about splitting and joining -/

/-- Splitting never produces an empty list of pieces. -/
theorem splitChar_ne_nil (c : Char) (l : List Char) : splitChar c l ≠ [] := by
  cases l with
  | nil => simp [splitChar]
  | cons x xs =>
    unfold splitChar
    cases h : splitChar c xs with
    | nil => simp
    | cons y ys =>
      by_cases hx : x = c <;> simp [hx]

/-- Splitting a separator-free list yields that single piece. -/
theorem splitChar_no_sep {c : Char} {l : List Char} (h : c ∉ l) :
    splitChar c l = [l] := by
  induction l with
  | nil => rfl
  | cons x xs ih =>
    have hx : ¬x = c := fun he => h (he ▸ List.mem_cons_self x xs)
    have hxs : c ∉ xs := fun hm => h (List.mem_cons_of_mem x hm)
    unfold splitChar
    rw [ih hxs]
    simp [hx]

/-- Unfolding equation of splitChar at a cons cell. -/
theorem splitChar_cons (c x : Char) (xs : List Char) :
    splitChar c (x :: xs) =
      match splitChar c xs with
      | [] => [[x]]
      | y :: ys => if x = c then [] :: y :: ys else (x :: y) :: ys := by
  rfl

/-- Splitting peels off a separator-free prefix before a separator. -/
theorem splitChar_append {c : Char} {a b : List Char} (h : c ∉ a) :
    splitChar c (a ++ c :: b) = a :: splitChar c b := by
  induction a with
  | nil =>
    simp only [List.nil_append]
    rw [splitChar_cons]
    cases h2 : splitChar c b with
    | nil => exact absurd h2 (splitChar_ne_nil c b)
    | cons y ys => simp
  | cons x xs ih =>
    have hx : ¬x = c := fun he => h (he ▸ List.mem_cons_self x xs)
    have hxs : c ∉ xs := fun hm => h (List.mem_cons_of_mem x hm)
    show splitChar c (x :: (xs ++ c :: b)) = (x :: xs) :: splitChar c b
    rw [splitChar_cons, ih hxs]
    simp [hx]

/-- Splitting inverts joining when no piece contains the separator. -/
theorem splitChar_joinSep {c : Char} {ls : List (List Char)} (h0 : ls ≠ [])
    (h : ∀ l ∈ ls, c ∉ l) : splitChar c (joinSep c ls) = ls := by
  induction ls with
  | nil => exact absurd rfl h0
  | cons l rest ih =>
    cases rest with
    | nil =>
      show splitChar c (joinSep c [l]) = [l]
      exact splitChar_no_sep (h l (List.mem_cons_self l []))
    | cons l2 rest2 =>
      show splitChar c (l ++ c :: joinSep c (l2 :: rest2)) = l :: l2 :: rest2
      rw [splitChar_append (h l (List.mem_cons_self l (l2 :: rest2)))]
      rw [ih (by simp) (fun x hx => h x (List.mem_cons_of_mem l hx))]

/-- No piece of a split contains the separator. -/
theorem not_mem_of_mem_splitChar {c : Char} {l piece : List Char}
    (hp : piece ∈ splitChar c l) : c ∉ piece := by
  induction l generalizing piece with
  | nil =>
    simp [splitChar] at hp
    subst hp
    simp
  | cons x xs ih =>
    cases h : splitChar c xs with
    | nil => exact absurd h (splitChar_ne_nil c xs)
    | cons y ys =>
      have hsplit : splitChar c (x :: xs) =
          if x = c then [] :: y :: ys else (x :: y) :: ys := by
        rw [splitChar_cons, h]
      rw [hsplit] at hp
      by_cases hx : x = c
      · rw [if_pos hx] at hp
        rcases List.mem_cons.mp hp with he | hm
        · subst he
          simp
        · exact ih (h ▸ hm)
      · rw [if_neg hx] at hp
        rcases List.mem_cons.mp hp with he | hm
        · subst he
          intro hmem
          rcases List.mem_cons.mp hmem with he2 | hm2
          · exact hx he2.symm
          · have hy : y ∈ splitChar c xs := h ▸ List.mem_cons_self y ys
            exact ih hy hm2
        · exact ih (h ▸ List.mem_cons_of_mem y hm)

/-- Every character of a piece occurs in the split list. -/
theorem mem_of_mem_splitChar_piece {c a : Char} {l piece : List Char}
    (hp : piece ∈ splitChar c l) (ha : a ∈ piece) : a ∈ l := by
  induction l generalizing piece with
  | nil =>
    simp [splitChar] at hp
    subst hp
    exact absurd ha (List.not_mem_nil a)
  | cons x xs ih =>
    cases h : splitChar c xs with
    | nil => exact absurd h (splitChar_ne_nil c xs)
    | cons y ys =>
      have hsplit : splitChar c (x :: xs) =
          if x = c then [] :: y :: ys else (x :: y) :: ys := by
        rw [splitChar_cons, h]
      rw [hsplit] at hp
      by_cases hx : x = c
      · rw [if_pos hx] at hp
        rcases List.mem_cons.mp hp with he | hm
        · subst he
          exact absurd ha (List.not_mem_nil a)
        · exact List.mem_cons_of_mem x (ih (h ▸ hm) ha)
      · rw [if_neg hx] at hp
        rcases List.mem_cons.mp hp with he | hm
        · subst he
          rcases List.mem_cons.mp ha with he2 | hm2
          · exact he2 ▸ List.mem_cons_self x xs
          · have hy : y ∈ splitChar c xs := h ▸ List.mem_cons_self y ys
            exact List.mem_cons_of_mem x (ih hy hm2)
        · exact List.mem_cons_of_mem x (ih (h ▸ List.mem_cons_of_mem y hm) ha)

/-- Splitting at the first separator occurrence reconstructs the list,
and the prefix is separator free. -/
theorem splitOnceChar_sound {c : Char} {l a b : List Char}
    (h : splitOnceChar c l = some (a, b)) : l = a ++ c :: b ∧ c ∉ a := by
  induction l generalizing a b with
  | nil => exact absurd h (by simp [splitOnceChar])
  | cons x xs ih =>
    unfold splitOnceChar at h
    by_cases hx : x = c
    · rw [if_pos hx] at h
      have ha : a = [] ∧ b = xs := by
        have := Option.some.inj h
        exact ⟨(Prod.mk.injEq _ _ _ _ ▸ this).1.symm, (Prod.mk.injEq _ _ _ _ ▸ this).2.symm⟩
      rcases ha with ⟨ha1, ha2⟩
      subst ha1
      subst ha2
      subst hx
      exact ⟨rfl, by simp⟩
    · rw [if_neg hx] at h
      cases h2 : splitOnceChar c xs with
      | none => rw [h2] at h; exact absurd h (by simp)
      | some p =>
        rw [h2] at h
        rcases p with ⟨a2, b2⟩
        have he := Option.some.inj h
        have ha : a = x :: a2 := ((Prod.mk.injEq _ _ _ _ ▸ he).1).symm
        have hb : b = b2 := ((Prod.mk.injEq _ _ _ _ ▸ he).2).symm
        subst ha
        subst hb
        rcases ih h2 with ⟨hx1, hx2⟩
        constructor
        · rw [List.cons_append, ← hx1]
        · intro hmem
          rcases List.mem_cons.mp hmem with he2 | hm2
          · exact hx he2.symm
          · exact hx2 hm2

/-- Splitting once after appending a separator-free prefix, a separator
and a suffix recovers exactly that decomposition. -/
theorem splitOnceChar_append {c : Char} {k v : List Char} (h : c ∉ k) :
    splitOnceChar c (k ++ c :: v) = some (k, v) := by
  induction k with
  | nil =>
    simp [splitOnceChar]
  | cons x xs ih =>
    have hx : ¬x = c := fun he => h (he ▸ List.mem_cons_self x xs)
    have hxs : c ∉ xs := fun hm => h (List.mem_cons_of_mem x hm)
    show splitOnceChar c (x :: (xs ++ c :: v)) = some (x :: xs, v)
    unfold splitOnceChar
    rw [ih hxs]
    simp [hx]

/-- Every character of a join is the separator or a character of some
piece. -/
theorem mem_joinSep {c a : Char} {ls : List (List Char)}
    (h : a ∈ joinSep c ls) : a = c ∨ ∃ l ∈ ls, a ∈ l := by
  induction ls with
  | nil => exact absurd h (List.not_mem_nil a)
  | cons l rest ih =>
    cases rest with
    | nil =>
      right
      exact ⟨l, List.mem_cons_self l [], h⟩
    | cons l2 rest2 =>
      have h2 : a ∈ l ++ c :: joinSep c (l2 :: rest2) := h
      rcases List.mem_append.mp h2 with hm | hm
      · right
        exact ⟨l, List.mem_cons_self l (l2 :: rest2), hm⟩
      · rcases List.mem_cons.mp hm with he | hm2
        · left
          exact he
        · rcases ih hm2 with he | ⟨l3, hl3, hm3⟩
          · left
            exact he
          · right
            exact ⟨l3, List.mem_cons_of_mem l hl3, hm3⟩

/-- Appending before a right-trim-stable nonempty list is right-trim
stable. -/
theorem trimRightChars_append_stable {x y : List Char}
    (hy : trimRightChars y = y) (hne : y ≠ []) :
    trimRightChars (x ++ y) = x ++ y := by
  have h1 : List.dropWhile isRustWS y.reverse = y.reverse := by
    have h2 := congrArg List.reverse hy
    unfold trimRightChars at h2
    rwa [List.reverse_reverse] at h2
  cases hyR : y.reverse with
  | nil =>
    exact absurd (by simpa using congrArg List.reverse hyR) hne
  | cons c t =>
    rw [hyR] at h1
    have hc : isRustWS c = false := head_not_ws_of_trimLeft_stable h1
    unfold trimRightChars
    rw [List.reverse_append, hyR, List.cons_append, List.dropWhile_cons, hc]
    simp only [Bool.false_eq_true, if_false]
    rw [← List.cons_append, ← hyR, ← List.reverse_append, List.reverse_reverse]

/-- A join headed by a nonempty piece is nonempty. -/
theorem joinSep_ne_nil {c : Char} {l : List Char} {rest : List (List Char)}
    (h : l ≠ []) : joinSep c (l :: rest) ≠ [] := by
  cases rest with
  | nil => exact h
  | cons l2 rest2 =>
    show l ++ c :: joinSep c (l2 :: rest2) ≠ []
    simp

/-- A join of trim-stable nonempty pieces with a non-whitespace
separator is trim stable. -/
theorem trimChars_joinSep_stable {c : Char} (hc : isRustWS c = false)
    {ls : List (List Char)} (hstable : ∀ l ∈ ls, trimChars l = l)
    (hne : ∀ l ∈ ls, l ≠ []) :
    trimChars (joinSep c ls) = joinSep c ls := by
  induction ls with
  | nil => rfl
  | cons l rest ih =>
    have hl : trimChars l = l := hstable l (List.mem_cons_self l rest)
    have hlne : l ≠ [] := hne l (List.mem_cons_self l rest)
    cases rest with
    | nil => exact hl
    | cons l2 rest2 =>
      have hrest : trimChars (joinSep c (l2 :: rest2)) = joinSep c (l2 :: rest2) :=
        ih (fun p hp => hstable p (List.mem_cons_of_mem l hp))
          (fun p hp => hne p (List.mem_cons_of_mem l hp))
      have hrestne : joinSep c (l2 :: rest2) ≠ [] :=
        joinSep_ne_nil (hne l2 (List.mem_cons_of_mem l (List.mem_cons_self l2 rest2)))
      show trimChars (l ++ c :: joinSep c (l2 :: rest2)) = l ++ c :: joinSep c (l2 :: rest2)
      apply trimChars_eq_self
      · cases l with
        | nil => exact absurd rfl hlne
        | cons d t =>
          have hd : isRustWS d = false :=
            head_not_ws_of_trimLeft_stable (trimLeft_of_trim_stable hl)
          rw [List.cons_append]
          exact trimLeftChars_cons_of_head hd
      · apply trimRightChars_append_stable
        · have hz : trimRightChars (joinSep c (l2 :: rest2)) = joinSep c (l2 :: rest2) :=
            trimRight_of_trim_stable hrest
          have : trimRightChars ([c] ++ joinSep c (l2 :: rest2)) =
              [c] ++ joinSep c (l2 :: rest2) :=
            trimRightChars_append_stable hz hrestne
          simpa using this
        · simp

/-! ## Lemmas about the parsed config map -/

/-- Looking up the key just inserted returns the inserted value. -/
theorem lookupEntry_insertEntry_self (m : List Entry) (k v : String) :
    lookupEntry (insertEntry m k v) k = some v := by
  induction m with
  | nil => simp [insertEntry, lookupEntry]
  | cons e t ih =>
    rcases e with ⟨a, b⟩
    unfold insertEntry
    by_cases ha : a = k
    · rw [if_pos ha]
      simp [lookupEntry]
    · rw [if_neg ha]
      unfold lookupEntry
      rw [if_neg ha]
      exact ih

/-- Inserting a key that is not present appends the new entry. -/
theorem insertEntry_append_of_not_mem {m : List Entry} {k : String}
    (h : k ∉ m.map Prod.fst) (v : String) :
    insertEntry m k v = m ++ [(k, v)] := by
  induction m with
  | nil => rfl
  | cons e t ih =>
    rcases e with ⟨a, b⟩
    have ha : ¬a = k := by
      intro he
      exact h (by simp [he])
    unfold insertEntry
    rw [if_neg ha, ih (fun hm => h (by simp [hm]))]
    rfl

/-- The keys after an insert are among the old keys plus the inserted
key. -/
theorem keys_insertEntry_subset {m : List Entry} {k v : String} {a : String}
    (h : a ∈ (insertEntry m k v).map Prod.fst) :
    a ∈ m.map Prod.fst ∨ a = k := by
  induction m with
  | nil =>
    simp [insertEntry] at h
    right
    exact h
  | cons e t ih =>
    rcases e with ⟨x, y⟩
    unfold insertEntry at h
    by_cases hx : x = k
    · rw [if_pos hx] at h
      simp at h
      rcases h with he | hm
      · right
        exact he
      · left
        simp [hm]
    · rw [if_neg hx] at h
      simp only [List.map_cons, List.mem_cons] at h
      rcases h with he | hm
      · left
        simp [he]
      · rcases ih hm with h2 | h2
        · left
          simp only [List.map_cons, List.mem_cons]
          right
          exact h2
        · right
          exact h2

/-- Inserting a wellformed pair preserves wellformedness. -/
theorem wfEntries_insertEntry {m : List Entry} {k v : String}
    (hm : wfEntries m) (hk : wfKey k) (hv : wfValue v) :
    wfEntries (insertEntry m k v) := by
  induction m with
  | nil =>
    intro e he
    simp [insertEntry] at he
    subst he
    exact ⟨hk, hv⟩
  | cons p t ih =>
    rcases p with ⟨a, b⟩
    unfold insertEntry
    by_cases ha : a = k
    · rw [if_pos ha]
      intro e he
      rcases List.mem_cons.mp he with he2 | hm2
      · subst he2
        exact ⟨hk, hv⟩
      · exact hm e (List.mem_cons_of_mem _ hm2)
    · rw [if_neg ha]
      intro e he
      rcases List.mem_cons.mp he with he2 | hm2
      · subst he2
        exact hm (a, b) (List.mem_cons_self _ _)
      · exact ih (fun e2 he2 => hm e2 (List.mem_cons_of_mem _ he2)) e hm2

/-- Inserting preserves distinctness of keys. -/
theorem keysNodup_insertEntry {m : List Entry} {k v : String}
    (h : keysNodup m) : keysNodup (insertEntry m k v) := by
  induction m with
  | nil => simp [insertEntry, keysNodup]
  | cons p t ih =>
    rcases p with ⟨a, b⟩
    unfold keysNodup at h
    simp only [List.map_cons, List.nodup_cons] at h
    unfold insertEntry
    by_cases ha : a = k
    · rw [if_pos ha]
      unfold keysNodup
      simp only [List.map_cons, List.nodup_cons]
      exact ⟨ha ▸ h.1, h.2⟩
    · rw [if_neg ha]
      unfold keysNodup
      simp only [List.map_cons, List.nodup_cons]
      constructor
      · intro hmem
        rcases keys_insertEntry_subset hmem with h2 | h2
        · exact h.1 h2
        · exact ha h2
      · exact ih h.2

/-- Parsing one newline-free line preserves wellformedness of the
accumulated map. -/
theorem wfEntries_parseConfigLine {m : List Entry} {line : List Char}
    (hm : wfEntries m) (hnl : '\n' ∉ line) :
    wfEntries (parseConfigLine m line) := by
  unfold parseConfigLine
  cases h : splitOnceChar '=' line with
  | none => exact hm
  | some p =>
    rcases p with ⟨k, v⟩
    rcases splitOnceChar_sound h with ⟨hline, hknoeq⟩
    apply wfEntries_insertEntry hm
    · refine ⟨?_, ?_, trimChars_idem k⟩
      · intro hmem
        exact hknoeq (mem_of_mem_trimChars hmem)
      · intro hmem
        exact hnl (hline ▸ List.mem_append.mpr (Or.inl (mem_of_mem_trimChars hmem)))
    · refine ⟨?_, trimChars_idem v⟩
      intro hmem
      apply hnl
      rw [hline]
      exact List.mem_append.mpr (Or.inr (List.mem_cons_of_mem _ (mem_of_mem_trimChars hmem)))

/-- Parsing one line preserves distinctness of keys. -/
theorem keysNodup_parseConfigLine {m : List Entry} {line : List Char}
    (h : keysNodup m) : keysNodup (parseConfigLine m line) := by
  unfold parseConfigLine
  cases h2 : splitOnceChar '=' line with
  | none => exact h
  | some p =>
    rcases p with ⟨k, v⟩
    exact keysNodup_insertEntry h

/-- Folding the line parser over newline-free lines preserves the map
invariants. -/
theorem foldl_parseConfigLine_wf {lines : List (List Char)} {acc : List Entry}
    (hacc : wfEntries acc ∧ keysNodup acc)
    (hlines : ∀ l ∈ lines, '\n' ∉ l) :
    wfEntries (lines.foldl parseConfigLine acc) ∧
      keysNodup (lines.foldl parseConfigLine acc) := by
  induction lines generalizing acc with
  | nil => exact hacc
  | cons line rest ih =>
    simp only [List.foldl_cons]
    apply ih
    · exact ⟨wfEntries_parseConfigLine hacc.1 (hlines line (List.mem_cons_self _ _)),
        keysNodup_parseConfigLine hacc.2⟩
    · exact fun l hl => hlines l (List.mem_cons_of_mem _ hl)

/-- The parsed config always satisfies the map invariants. -/
theorem parseConfig_wf (content : String) :
    wfEntries (parseConfig content) ∧ keysNodup (parseConfig content) := by
  unfold parseConfig
  apply foldl_parseConfigLine_wf
  · constructor
    · intro e he
      exact absurd he (List.not_mem_nil e)
    · simp [keysNodup]
  · exact fun l hl => not_mem_of_mem_splitChar hl

/-- Folding the line parser over serialized wellformed entries with
fresh keys appends them. -/
theorem foldl_parseConfigLine_lines {m : List Entry} {acc : List Entry}
    (hwf : wfEntries m) (hnd : keysNodup m)
    (hdisj : ∀ e ∈ m, e.1 ∉ acc.map Prod.fst) :
    (m.map lineOfEntry).foldl parseConfigLine acc = acc ++ m := by
  induction m generalizing acc with
  | nil => simp
  | cons e t ih =>
    have hwfe := hwf e (List.mem_cons_self e t)
    simp only [List.map_cons, List.foldl_cons]
    have hstep : parseConfigLine acc (lineOfEntry e) = acc ++ [e] := by
      unfold parseConfigLine lineOfEntry
      rw [splitOnceChar_append hwfe.1.1]
      show insertEntry acc ⟨trimChars e.1.data⟩ ⟨trimChars e.2.data⟩ = acc ++ [e]
      rw [hwfe.1.2.2, hwfe.2.2]
      show insertEntry acc e.1 e.2 = acc ++ [e]
      rw [insertEntry_append_of_not_mem (hdisj e (List.mem_cons_self e t))]
    rw [hstep]
    rw [ih (fun e2 he2 => hwf e2 (List.mem_cons_of_mem _ he2))
      (by
        unfold keysNodup at hnd
        simp only [List.map_cons, List.nodup_cons] at hnd
        exact hnd.2)
      (by
        intro e2 he2
        simp only [List.map_append, List.map_cons, List.map_nil]
        intro hmem
        rcases List.mem_append.mp hmem with h2 | h2
        · exact hdisj e2 (List.mem_cons_of_mem _ he2) h2
        · unfold keysNodup at hnd
          simp only [List.map_cons, List.nodup_cons] at hnd
          rcases List.mem_singleton.mp h2 with he3
          exact hnd.1 (he3 ▸ List.mem_map_of_mem Prod.fst he2))]
    simp

/-- Parsing inverts serialization on wellformed maps with distinct
keys. -/
theorem parseConfig_serializeConfig {m : List Entry}
    (hwf : wfEntries m) (hnd : keysNodup m) :
    parseConfig (serializeConfig m) = m := by
  cases m with
  | nil => rfl
  | cons e t =>
    unfold parseConfig serializeConfig
    show (splitChar '\n' (joinSep '\n' ((e :: t).map lineOfEntry))).foldl parseConfigLine [] = e :: t
    rw [splitChar_joinSep (by simp) ?hfree]
    case hfree =>
      intro l hl
      rcases List.mem_map.mp hl with ⟨e2, he2, hline⟩
      have hwfe := hwf e2 he2
      subst hline
      unfold lineOfEntry
      intro hmem
      rcases List.mem_append.mp hmem with h2 | h2
      · exact hwfe.1.2.1 h2
      · rcases List.mem_cons.mp h2 with h3 | h3
        · exact absurd h3 (by decide)
        · exact hwfe.2.1 h3
    rw [foldl_parseConfigLine_lines hwf hnd (by simp)]
    simp

/-- Reading a wellformed key right after setting it returns exactly the
wellformed value that was set. -/
theorem getConfigValue_setConfigValue {content k v : String}
    (hk : wfKey k) (hv : wfValue v) :
    getConfigValue k (setConfigValue k v content) = some v := by
  unfold getConfigValue setConfigValue
  rcases parseConfig_wf content with ⟨hwf, hnd⟩
  rw [parseConfig_serializeConfig (wfEntries_insertEntry hwf hk hv)
    (keysNodup_insertEntry hnd)]
  exact lookupEntry_insertEntry_self _ k v

/-! ## Lemmas about the trust list -/

/-- A string has empty data exactly when it is the empty string. -/
theorem string_data_eq_nil {s : String} : s.data = [] ↔ s = "" := by
  cases s with
  | mk d =>
    show d = [] ↔ String.mk d = ""
    constructor
    · intro h
      rw [h]
    · intro h
      have h2 := congrArg String.data h
      simpa using h2

/-- A successful lookup returns a value stored in the map. -/
theorem lookupEntry_mem {m : List Entry} {k v : String}
    (h : lookupEntry m k = some v) : (k, v) ∈ m := by
  induction m with
  | nil => exact absurd h (by simp [lookupEntry])
  | cons e t ih =>
    rcases e with ⟨a, b⟩
    unfold lookupEntry at h
    by_cases ha : a = k
    · rw [if_pos ha] at h
      have hb := Option.some.inj h
      subst ha
      subst hb
      exact List.mem_cons_self _ _
    · rw [if_neg ha] at h
      exact List.mem_cons_of_mem _ (ih h)

/-- Parsing a comma join of comma-free names keeps exactly the
nonempty names. -/
theorem parseTrustList_joinComma {xs : List String}
    (h : ∀ s ∈ xs, ',' ∉ s.data) :
    parseTrustList (joinComma xs) = xs.filter (fun s => s ≠ "") := by
  cases xs with
  | nil => rfl
  | cons x rest =>
    unfold parseTrustList joinComma
    show ((splitChar ',' (joinSep ',' ((x :: rest).map String.data))).filter
        (fun l => l ≠ [])).map (fun l => (⟨l⟩ : String)) =
      (x :: rest).filter (fun s => s ≠ "")
    rw [splitChar_joinSep (by simp) ?hfree]
    case hfree =>
      intro l hl
      rcases List.mem_map.mp hl with ⟨s, hs, hdata⟩
      exact hdata ▸ h s hs
    generalize x :: rest = ys
    induction ys with
    | nil => rfl
    | cons y t ih =>
      simp only [List.map_cons, List.filter_cons]
      by_cases hy : y = ""
      · have hd : y.data = [] := string_data_eq_nil.mpr hy
        have h1 : decide (y.data ≠ []) = false := by simp [hd]
        have h2 : decide (y ≠ "") = false := by simp [hy]
        rw [h1, h2]
        simp only [Bool.false_eq_true, if_false]
        exact ih
      · have hd : ¬y.data = [] := fun h2 => hy (string_data_eq_nil.mp h2)
        have h1 : decide (y.data ≠ []) = true := by simp [hd]
        have h2 : decide (y ≠ "") = true := by simp [hy]
        rw [h1, h2]
        simp only [if_true]
        simp only [List.map_cons]
        rw [ih]

/-- Every name in the parsed trust set is nonempty, comma free and
newline free. -/
theorem getTrusted_shape {content : String} {s : String}
    (h : s ∈ getTrusted content) :
    s ≠ "" ∧ (',' ∉ s.data) ∧ ('\n' ∉ s.data) := by
  unfold getTrusted at h
  cases h2 : getConfigValue "trusted" content with
  | none =>
    rw [h2] at h
    exact absurd h (List.not_mem_nil s)
  | some v =>
    rw [h2] at h
    have hv : wfValue v := by
      have hmem := lookupEntry_mem h2
      exact ((parseConfig_wf content).1 ("trusted", v) hmem).2
    unfold parseTrustList at h
    rcases List.mem_map.mp h with ⟨piece, hpiece, hs⟩
    have hp2 := List.mem_filter.mp hpiece
    refine ⟨?_, ?_, ?_⟩
    · intro he
      have hpe : piece = [] := by
        have h3 := congrArg String.data (hs.trans he)
        simpa using h3
      exact absurd (decide_eq_true hpe) (by simpa using hp2.2)
    · intro hmem
      have hdata : s.data = piece := by rw [← hs]
      exact not_mem_of_mem_splitChar hp2.1 (hdata ▸ hmem)
    · intro hmem
      have hdata : s.data = piece := by rw [← hs]
      exact hv.1 (mem_of_mem_splitChar_piece hp2.1 (hdata ▸ hmem))

/-- Reading the trust set right after rewriting the trusted key parses
the written value. -/
theorem getTrusted_setConfigValue {content val : String} (hval : wfValue val) :
    getTrusted (setConfigValue "trusted" val content) = parseTrustList val := by
  unfold getTrusted
  rw [getConfigValue_setConfigValue
    (show wfKey "trusted" from ⟨by decide, by decide, by decide⟩) hval]

/-- A comma join of trim-stable, nonempty, newline-free names is a
wellformed config value. -/
theorem wfValue_joinComma {xs : List String}
    (hstable : ∀ s ∈ xs, trimChars s.data = s.data)
    (hne : ∀ s ∈ xs, s ≠ "")
    (hnl : ∀ s ∈ xs, '\n' ∉ s.data) :
    wfValue (joinComma xs) := by
  constructor
  · intro hmem
    unfold joinComma at hmem
    have hmem2 : '\n' ∈ joinSep ',' (xs.map String.data) := by simpa using hmem
    rcases mem_joinSep hmem2 with he | ⟨l, hl, hm⟩
    · exact absurd he (by decide)
    · rcases List.mem_map.mp hl with ⟨s, hs, hdata⟩
      exact hnl s hs (hdata ▸ hm)
  · show trimChars (joinComma xs).data = (joinComma xs).data
    unfold joinComma
    apply trimChars_joinSep_stable (by decide)
    · intro l hl
      rcases List.mem_map.mp hl with ⟨s, hs, hdata⟩
      exact hdata ▸ hstable s hs
    · intro l hl
      rcases List.mem_map.mp hl with ⟨s, hs, hdata⟩
      intro he
      exact hne s hs (string_data_eq_nil.mp (hdata.trans he))

/-! ## Claim C7: config set/get round trip -/

/-- C7 counterexample: the claim admits values with leading or trailing
whitespace, but the parser trims values on read, so a padded value does
not round-trip (set "api_key" to the padded value " secret " in an
empty store; get returns the trimmed "secret"). -/
theorem config_set_get_padded_value_fails :
    getConfigValue "api_key" (setConfigValue "api_key" " secret " "") ≠
      some " secret " := by
  decide

/-- C7 (amended): for every key and value free of equals signs and
newlines AND free of leading or trailing whitespace, set followed by
get returns exactly the value that was set. -/
theorem config_set_get_roundtrip (content k v : String)
    (hk1 : '=' ∉ k.data) (hk2 : '\n' ∉ k.data) (hk3 : rustTrim k = k)
    (hv1 : '=' ∉ v.data) (hv2 : '\n' ∉ v.data) (hv3 : rustTrim v = v) :
    getConfigValue k (setConfigValue k v content) = some v := by
  have hk3b : trimChars k.data = k.data := congrArg String.data hk3
  have hv3b : trimChars v.data = v.data := congrArg String.data hv3
  exact getConfigValue_setConfigValue ⟨hk1, hk2, hk3b⟩ ⟨hv2, hv3b⟩

/-- C7 witness: a concrete set/get round trip through the amended
theorem. -/
theorem config_set_get_roundtrip_witness :
    getConfigValue "api_key" (setConfigValue "api_key" "secret123" "plan=free") =
      some "secret123" :=
  config_set_get_roundtrip "plan=free" "api_key" "secret123"
    (by decide) (by decide) (by decide) (by decide) (by decide) (by decide)

/-! ## Claim C6: trust add then remove restores the original set -/

/-- C6 counterexample: when the package is already a member of the
trust set, add is a no-op and remove deletes the pre-existing entry, so
the original set is not restored. -/
theorem trust_remove_after_add_member_fails :
    getTrusted (removeTrusted "lodash" (addTrusted "lodash" "trusted=lodash")) ≠
      getTrusted "trusted=lodash" := by
  decide

/-- C6 (amended): removing a package right after adding it restores
the original trust set, provided the package was NOT already a member,
is a nonempty comma-free newline-free name without surrounding
whitespace, and the stored trust entries carry no surrounding
whitespace. -/
theorem trust_remove_after_add_roundtrip (content p : String)
    (hS : ∀ s ∈ getTrusted content, rustTrim s = s)
    (hp1 : rustTrim p = p) (hp2 : ',' ∉ p.data) (hp3 : '\n' ∉ p.data)
    (hp4 : p ≠ "") (hp5 : p ∉ getTrusted content) :
    getTrusted (removeTrusted p (addTrusted p content)) = getTrusted content := by
  have hcont : (getTrusted content).contains p = false := by
    cases hc : (getTrusted content).contains p with
    | false => rfl
    | true => exact absurd (List.elem_iff.mp hc) hp5
  have hadd : addTrusted p content =
      setConfigValue "trusted" (joinComma (getTrusted content ++ [p])) content := by
    unfold addTrusted
    show (if (getTrusted content).contains p = true then content
      else setConfigValue "trusted" (joinComma (getTrusted content ++ [p])) content) =
      setConfigValue "trusted" (joinComma (getTrusted content ++ [p])) content
    rw [hcont]
    simp
  have hstable : ∀ s ∈ getTrusted content ++ [p], trimChars s.data = s.data := by
    intro s hs
    rcases List.mem_append.mp hs with hm | hm
    · exact congrArg String.data (hS s hm)
    · rw [List.mem_singleton.mp hm]
      exact congrArg String.data hp1
  have hne : ∀ s ∈ getTrusted content ++ [p], s ≠ "" := by
    intro s hs
    rcases List.mem_append.mp hs with hm | hm
    · exact (getTrusted_shape hm).1
    · rw [List.mem_singleton.mp hm]
      exact hp4
  have hnl : ∀ s ∈ getTrusted content ++ [p], '\n' ∉ s.data := by
    intro s hs
    rcases List.mem_append.mp hs with hm | hm
    · exact (getTrusted_shape hm).2.2
    · rw [List.mem_singleton.mp hm]
      exact hp3
  have hcomma : ∀ s ∈ getTrusted content ++ [p], ',' ∉ s.data := by
    intro s hs
    rcases List.mem_append.mp hs with hm | hm
    · exact (getTrusted_shape hm).2.1
    · rw [List.mem_singleton.mp hm]
      exact hp2
  have hTadd : getTrusted (addTrusted p content) = getTrusted content ++ [p] := by
    rw [hadd, getTrusted_setConfigValue (wfValue_joinComma hstable hne hnl),
      parseTrustList_joinComma hcomma]
    apply List.filter_eq_self.mpr
    intro s hs
    exact decide_eq_true (hne s hs)
  have hfilter : (getTrusted content ++ [p]).filter (fun x => x ≠ p) =
      getTrusted content := by
    rw [List.filter_append]
    have h1 : (getTrusted content).filter (fun x => x ≠ p) = getTrusted content := by
      apply List.filter_eq_self.mpr
      intro s hs
      exact decide_eq_true (fun he => hp5 (he ▸ hs))
    have h2 : ([p] : List String).filter (fun x => x ≠ p) = [] := by
      simp
    rw [h1, h2, List.append_nil]
  have hrem : removeTrusted p (addTrusted p content) =
      setConfigValue "trusted" (joinComma (getTrusted content)) (addTrusted p content) := by
    unfold removeTrusted
    rw [hTadd, hfilter]
  have hstable2 : ∀ s ∈ getTrusted content, trimChars s.data = s.data :=
    fun s hs => congrArg String.data (hS s hs)
  have hne2 : ∀ s ∈ getTrusted content, s ≠ "" :=
    fun s hs => (getTrusted_shape hs).1
  have hnl2 : ∀ s ∈ getTrusted content, '\n' ∉ s.data :=
    fun s hs => (getTrusted_shape hs).2.2
  have hcomma2 : ∀ s ∈ getTrusted content, ',' ∉ s.data :=
    fun s hs => (getTrusted_shape hs).2.1
  rw [hrem, getTrusted_setConfigValue (wfValue_joinComma hstable2 hne2 hnl2),
    parseTrustList_joinComma hcomma2]
  apply List.filter_eq_self.mpr
  intro s hs
  exact decide_eq_true (hne2 s hs)

/-- C6 witness: a concrete add/remove round trip through the amended
theorem. -/
theorem trust_remove_after_add_roundtrip_witness :
    getTrusted (removeTrusted "left-pad" (addTrusted "left-pad" "trusted=axios")) =
      getTrusted "trusted=axios" :=
  trust_remove_after_add_roundtrip "trusted=axios" "left-pad"
    (by decide) (by decide) (by decide) (by decide) (by decide) (by decide)

/-! ## Claim C4: threats query window -/

/-- Taking the last n elements is dropping all but the last n. -/
theorem takeLast_eq_drop {α : Type} (n : Nat) (l : List α) :
    takeLast n l = l.drop (l.length - n) := by
  unfold takeLast
  rw [List.take_reverse, List.reverse_reverse]

/-- C4 counterexample: with one valid record followed by one malformed
line, asking for the last 1 record returns nothing, while the claim
(the last min(n, total) VALID records, malformed lines not reducing the
count) demands the valid record.  The parse function models serde-json
line deserialization on these two lines: the literal null is valid
JSON, the word oops is not. -/
theorem showThreats_malformed_window_fails :
    showThreats (fun s => if s = "null" then some 0 else none) 1 ["null", "oops"] =
        ([] : List Nat) ∧
      specThreatsQuery (fun s => if s = "null" then some 0 else none) 1 ["null", "oops"] =
        [0] := by
  constructor
  · decide
  · decide

/-- C4 (amended): the threats query returns exactly the syntactically
valid records among the last min(n, L) LINES of the log, in original
order, where L counts all lines including malformed ones; malformed
lines inside that window reduce the number of records returned. -/
theorem showThreats_eq_valid_of_lastLines {α : Type} (parse : String → Option α)
    (count : Nat) (lines : List String) :
    showThreats parse count lines =
      (takeLast (min count lines.length) lines).filterMap parse := by
  unfold showThreats
  rw [takeLast_eq_drop]
  by_cases h : lines.isEmpty
  · rw [if_pos h]
    have h2 : lines = [] := by simpa using h
    subst h2
    simp
  · rw [if_neg h]
    have hidx : (if lines.length > count then lines.length - count else 0) =
        lines.length - min count lines.length := by
      by_cases h2 : lines.length > count
      · rw [if_pos h2]
        omega
      · rw [if_neg h2]
        omega
    rw [hidx]

/-! ## Claim C5: sandbox working directory cleanup -/

/-- C5: evaluation of collect at the failing input.  When the
disposable directory was created but the manifest write fails, the
question-mark early return skips the remove call and the directory
remains on disk, contradicting the unconditional-cleanup claim. -/
theorem collectBehavior_write_failure_leaks_dir :
    collectBehavior ⟨true, false, none⟩ = (none, true) := rfl

/-! ## Character lemmas for the confirmation gate -/

/-- Converting a valid code point to a character and back is the
identity. -/
theorem char_toNat_ofNat {m : Nat} (h : m < 55296) : (Char.ofNat m).toNat = m := by
  unfold Char.ofNat
  rw [dif_pos (Or.inl h : Nat.isValidChar m)]
  simp [Char.ofNatAux, Char.toNat, UInt32.toNat, Nat.mod_eq_of_lt (by omega : m < 4294967296)]

/-- The only characters that lower-case to the letter y are y itself
and Y. -/
theorem lowerChar_eq_y (c : Char) : lowerChar c = 'y' ↔ c = 'y' ∨ c = 'Y' := by
  unfold lowerChar
  by_cases h : 'A' ≤ c ∧ c ≤ 'Z'
  · rw [if_pos h]
    have h1 : 65 ≤ c.toNat := h.1
    have h2 : c.toNat ≤ 90 := h.2
    constructor
    · intro he
      have h3 := congrArg Char.toNat he
      rw [char_toNat_ofNat (by omega)] at h3
      have hc : c.toNat = 89 := by
        have h4 : c.toNat + 32 = 121 := h3
        omega
      right
      apply Char.ext
      apply UInt32.toNat.inj
      exact hc
    · rintro (rfl | rfl)
      · exact absurd h.2 (by decide)
      · decide
  · rw [if_neg h]
    constructor
    · intro he
      left
      exact he
    · rintro (rfl | rfl)
      · rfl
      · exact absurd (by decide : 'A' ≤ 'Y' ∧ 'Y' ≤ 'Z') h

/-- A string equals its own character data. -/
theorem string_eq_of_data {s : String} {l : List Char} (h : s.data = l) :
    s = ⟨l⟩ := by
  cases s with
  | mk d =>
    show String.mk d = String.mk l
    rw [show d = l from h]

/-- The only strings that lower-case to the one-letter string y are y
itself and Y. -/
theorem lowerStr_eq_y (t : String) : lowerStr t = "y" ↔ t = "y" ∨ t = "Y" := by
  constructor
  · intro h
    have hdata : t.data.map lowerChar = ['y'] := by
      have h2 := congrArg String.data h
      simpa [lowerStr] using h2
    cases ht : t.data with
    | nil =>
      rw [ht] at hdata
      simp at hdata
    | cons c rest =>
      rw [ht] at hdata
      simp only [List.map_cons, List.cons.injEq] at hdata
      have hrest : rest = [] := by
        have h3 := hdata.2
        simpa using h3
      rcases (lowerChar_eq_y c).mp hdata.1 with rfl | rfl
      · left
        exact string_eq_of_data (by rw [ht, hrest])
      · right
        exact string_eq_of_data (by rw [ht, hrest])
  · rintro (rfl | rfl)
    · decide
    · decide

/-- The confirmation gate accepts exactly the inputs whose trimmed form
is the single letter y or Y. -/
theorem confirmYes_iff (input : String) :
    confirmYes input = true ↔
      rustTrim input = "y" ∨ rustTrim input = "Y" := by
  unfold confirmYes
  rw [beq_iff_eq]
  exact lowerStr_eq_y (rustTrim input)

/-! ## Claim C3: fail-open on remote scan failure -/

/-- C3: when the package is actually scanned (not a flag token, not
trusted) and the remote scan call fails, the decide operation warns
about the failure and proceeds: infrastructure failure never blocks the
install. -/
theorem scan_api_failure_proceeds (store package : String) (env : ScanEnv)
    (e : String)
    (h1 : skipToken package = false)
    (h2 : isTrusted (bareName package) store = false)
    (h3 : env.response = Except.error e) :
    (scanRun store package env).proceed = true ∧
      (scanRun store package env).failureWarned = true ∧
      (scanRun store package env).scanCalled = true := by
  unfold scanRun
  simp only [h1, h2, h3, Bool.false_eq_true, if_false]
  exact ⟨trivial, trivial, trivial⟩

/-- C3 witness: a concrete failing scan proceeds. -/
theorem scan_api_failure_proceeds_witness :
    (scanRun "device_id=d1" "leftpad" sampleScanEnvErr).proceed = true :=
  (scan_api_failure_proceeds "device_id=d1" "leftpad" sampleScanEnvErr
    "connection refused" (by decide) (by decide) rfl).1

/-! ## Claim C2: trusted packages bypass scanning -/

/-- C2 counterexample: a scoped package name added verbatim to the
trust set is still scanned, because the bare name computed by
split-at-the-first-at-sign is the empty string for scoped names and the
empty string is never in the trust set. -/
theorem scan_scoped_trusted_still_scanned :
    isTrusted "@scope/pkg" (addTrusted "@scope/pkg" "trusted=") = true ∧
      (scanRun (addTrusted "@scope/pkg" "trusted=") "@scope/pkg"
        sampleScanEnvErr).scanCalled = true := by
  constructor
  · decide
  · decide

/-- C2 (amended): every package whose bare name (the part before the
FIRST at-sign, which for scoped names is the empty string) is in the
trust set is decided without any scan request and with Proceed true;
scoped names never match, since their computed bare name is empty while
the trust set stores the full name. -/
theorem scan_trusted_skips (store package : String) (env : ScanEnv)
    (h : isTrusted (bareName package) store = true) :
    (scanRun store package env).proceed = true ∧
      (scanRun store package env).scanCalled = false := by
  unfold scanRun
  by_cases hskip : skipToken package
  · simp only [hskip, if_true]
    exact ⟨trivial, trivial⟩
  · simp only [hskip, Bool.false_eq_true, if_false, h, if_true]
    exact ⟨trivial, trivial⟩

/-- C2 witness: a trusted name with a version suffix is decided with no
scan call. -/
theorem scan_trusted_skips_witness :
    (scanRun "trusted=lodash" "lodash@1.2.3" sampleScanEnvErr).scanCalled = false :=
  (scan_trusted_skips "trusted=lodash" "lodash@1.2.3" sampleScanEnvErr (by decide)).2

/-! ## Claim C1: the dangerous-tier confirmation gate -/

/-- C1 counterexample: on a dangerous response, the input consisting of
the letter y surrounded by spaces does NOT match the anchored Y-or-y
regular expression, yet the decide operation proceeds, because the code
trims the input before comparing. -/
theorem scan_dangerous_whitespace_input_proceeds :
    (scanRun "device_id=d1" "evil-pkg" (sampleScanEnvDanger " y ")).proceed = true ∧
      specRegexYy " y " = false := by
  constructor
  · decide
  · decide

/-- C1 (amended): on a dangerous response for a package that is
actually scanned, the decide operation blocks on one line of input and
proceeds exactly when the WHITESPACE-TRIMMED input matches the anchored
Y-or-y regular expression (the code trims and lower-cases the line
before comparing it to the letter y). -/
theorem scan_dangerous_gate (store package : String) (env : ScanEnv)
    (r : ScanResponse)
    (h1 : skipToken package = false)
    (h2 : isTrusted (bareName package) store = false)
    (h3 : env.response = Except.ok r)
    (h4 : r.riskLevel.getD "unknown" = "dangerous") :
    ((scanRun store package env).proceed = true ↔
      specRegexYy (rustTrim env.confirmInput) = true) := by
  have hconf := confirmYes_iff env.confirmInput
  have hspec : specRegexYy (rustTrim env.confirmInput) = true ↔
      rustTrim env.confirmInput = "y" ∨ rustTrim env.confirmInput = "Y" := by
    unfold specRegexYy
    simp
  unfold scanRun
  simp only [h1, h2, h3, Bool.false_eq_true, if_false]
  have hrisk : (r.riskLevel.getD "unknown" == "dangerous") = true :=
    beq_iff_eq.mpr h4
  rw [hrisk]
  cases hc : confirmYes env.confirmInput with
  | false =>
    simp only [Bool.not_false, Bool.and_true, if_pos]
    constructor
    · intro hcontra
      exact absurd hcontra (by simp)
    · intro hcontra
      rw [hc] at hconf
      exact absurd (hspec.mp hcontra) (by simpa using hconf)
  | true =>
    simp only [Bool.not_true, Bool.and_false, Bool.false_eq_true, if_false]
    constructor
    · intro _
      rw [hc] at hconf
      exact hspec.mpr (hconf.mp rfl)
    · intro _
      split
      · rfl
      · split
        · rfl
        · rfl

/-- C1 witness: the capital letter Y proceeds through the gate. -/
theorem scan_dangerous_gate_witness :
    (scanRun "device_id=d1" "evil-pkg" (sampleScanEnvDanger "Y")).proceed = true :=
  (scan_dangerous_gate "device_id=d1" "evil-pkg" (sampleScanEnvDanger "Y")
    dangerousResponse (by decide) (by decide) rfl (by decide)).mpr (by decide)

/-! ## Claim C10: decide never writes the config store -/

/-- C10 counterexample: on a store without a device_id entry, the
decide operation persists a freshly generated device id while building
the scan request URL, so the stored configuration changes. -/
theorem scan_writes_device_id_when_missing :
    (scanRun "plan=free" "leftpad" sampleScanEnvErr).store ≠ "plan=free" := by
  decide

/-- C10 (amended): whenever the stored configuration already contains a
device_id entry, the decide operation (sandbox step included) performs
no config write at all: the persisted content after the call is
identical to the content before. -/
theorem scan_no_config_write (store package : String) (env : ScanEnv)
    (h : (getConfigValue "device_id" store).isSome = true) :
    (scanRun store package env).store = store := by
  obtain ⟨id, hid⟩ := Option.isSome_iff_exists.mp h
  have hdev : getDeviceId env.genId store = (id, store) := by
    unfold getDeviceId
    rw [hid]
  unfold scanRun runLocalSandbox
  simp only [hdev]
  split
  · rfl
  · split
    · rfl
    · split
      · rfl
      · split
        · rfl
        · split
          · rfl
          · split
            · rfl
            · split
              · rfl
              · split
                · rfl
                · rfl

/-- C10 witness: a store with a device id is untouched by a decide
call. -/
theorem scan_no_config_write_witness :
    (scanRun "device_id=d1" "leftpad" sampleScanEnvErr).store = "device_id=d1" :=
  scan_no_config_write "device_id=d1" "leftpad" sampleScanEnvErr (by decide)

/-! ## Claim C8: passthrough of non-install commands -/

/-- C8: a command whose argv0 is not classified install-like for the
given manager is forwarded untouched: no package is ever passed to the
decide operation, the real manager is invoked with the original
arguments and no monitoring injection, and the process terminates with
the child's exit code (1 when the child ended without a code). -/
theorem wrap_passthrough (env : WrapEnv) (manager : String) (args : List String)
    (h : isInstallCmd manager ((args.head?).getD "") = false) :
    wrapRun env manager args =
        ⟨[], some args, false, runOriginalCommand env.childOutcome⟩ ∧
      (∀ c : Int, env.childOutcome = ChildOutcome.exited c →
        (wrapRun env manager args).exit = some c) ∧
      (env.childOutcome = ChildOutcome.noCode →
        (wrapRun env manager args).exit = some 1) := by
  have hmain : wrapRun env manager args =
      ⟨[], some args, false, runOriginalCommand env.childOutcome⟩ := by
    unfold wrapRun
    by_cases hd : env.sapoDisabled
    · rw [if_pos hd]
    · simp only [hd, Bool.false_eq_true, if_false, h, if_pos]
  refine ⟨hmain, ?_, ?_⟩
  · intro c hc
    rw [hmain]
    show runOriginalCommand env.childOutcome = some c
    rw [hc]
    rfl
  · intro hc
    rw [hmain]
    show runOriginalCommand env.childOutcome = some 1
    rw [hc]
    rfl

/-- C8 witness: npm run test with a child exiting 7 forwards exit code
7 and scans nothing. -/
theorem wrap_passthrough_witness :
    (wrapRun sampleWrapEnv "npm" ["run", "test"]).exit = some 7 :=
  (wrap_passthrough sampleWrapEnv "npm" ["run", "test"] (by decide)).2.1 7 rfl

/-! ## Claim C9: enabling runtime monitoring -/

/-- C9: on a non-Pro store, enable changes nothing and attempts no
download; on any store, the store changes only when the module was
downloaded AND persisted, and then the only change is setting the
runtime_monitoring flag; a failed download leaves the store (hence the
flag) unchanged. -/
theorem monitor_enable_pro_gated (store : String) (env : EnableEnv) :
    (isPro store = false → enableMonitor store env = ⟨store, false, false⟩) ∧
      (downloadMonitorScript env = false → (enableMonitor store env).store = store) ∧
      ((enableMonitor store env).store ≠ store →
        isPro store = true ∧ downloadMonitorScript env = true ∧
          (enableMonitor store env).scriptPersisted = true ∧
          (enableMonitor store env).store =
            setConfigValue "runtime_monitoring" "true" store) := by
  refine ⟨?_, ?_, ?_⟩
  · intro h
    unfold enableMonitor
    rw [if_pos h]
  · intro h
    unfold enableMonitor
    by_cases hp : isPro store = false
    · rw [if_pos hp]
    · rw [if_neg hp, if_pos h]
  · intro h
    unfold enableMonitor at h ⊢
    by_cases hp : isPro store = false
    · rw [if_pos hp] at h
      exact absurd rfl h
    · rw [if_neg hp] at h ⊢
      by_cases hdl : downloadMonitorScript env = false
      · rw [if_pos hdl] at h
        exact absurd rfl h
      · rw [if_neg hdl] at h ⊢
        refine ⟨?_, ?_, rfl, rfl⟩
        · revert hp
          cases isPro store <;> simp
        · revert hdl
          cases downloadMonitorScript env <;> simp
  
/-- C9 witness: enable on a free-plan store changes nothing and
attempts no download, even when the download would have succeeded. -/
theorem monitor_enable_pro_gated_witness :
    enableMonitor "plan=free" sampleEnableEnvOk = ⟨"plan=free", false, false⟩ :=
  (monitor_enable_pro_gated "plan=free" sampleEnableEnvOk).1 (by decide)
